import Mathlib

/-!
Verification of the concurrent download pipeline of `scrape.py`
(alles-gesagt-scraper).

The development shallowly embeds the parts of the program that the
specification's claims are about:

* the progress registry (a Python `dict[str, int]`, insertion ordered),
* Python's banker rounding `round`, used for the percent display,
* `response.iter_content(1024 * 64)` chunking of a response body,
* the body of `worker` (lines 59-86 of `scrape.py`) as a big-step
  function over one task plus a small-step transition system for the
  whole worker pool,
* the task producer loop of `main` (lines 139-150),
* one iteration of `downloading_info_thread` (lines 95-115) together
  with a small line-based terminal model, and
* the lock/IO action traces of the worker and the renderer.

Machine integers are modelled as `Nat`/`Int`/`Rat` (Python integers are
unbounded; `written / length` is exact real division here, modelled in `ℚ`).
-/

namespace Scrape

/-! ## The progress registry: a Python `dict[str, int]`

Python dictionaries preserve insertion order: assigning to an existing key
keeps its position, assigning a fresh key appends it, `del` removes it.
`currently_downloading` is such a dict; the renderer iterates it in
insertion order, so the model is an ordered association list. -/

/-- The `currently_downloading` dict: insertion-ordered `str → int` map. -/
abbrev Registry : Type := List (String × ℤ)

/-- Key membership test of a Python dict (`k in d`). -/
def hasKey (d : Registry) (k : String) : Bool :=
  d.any (fun p => p.1 = k)

/-- Python `d[k] = v`: update in place when the key exists, else append. -/
def dictSet (d : Registry) (k : String) (v : ℤ) : Registry :=
  if hasKey d k then d.map (fun p => if p.1 = k then (k, v) else p)
  else d ++ [(k, v)]

/-- Python `del d[k]`: removes the binding of `k`. -/
def dictDel (d : Registry) (k : String) : Registry :=
  d.filter (fun p => !(p.1 = k : Bool))

/-- The keys of the dict, in insertion order. -/
def regKeys (d : Registry) : List String :=
  d.map Prod.fst

theorem hasKey_iff_mem_regKeys (d : Registry) (k : String) :
    hasKey d k = true ↔ k ∈ regKeys d := by
  unfold hasKey regKeys
  rw [List.any_eq_true]
  constructor
  · rintro ⟨p, hp, hpk⟩
    rw [decide_eq_true_eq] at hpk
    exact hpk ▸ List.mem_map_of_mem Prod.fst hp
  · intro hk
    obtain ⟨p, hp, hpk⟩ := List.mem_map.mp hk
    exact ⟨p, hp, decide_eq_true hpk⟩

/-- The keys of a map that rewrites the value at `k` are the keys of `d`. -/
theorem regKeys_update (d : Registry) (k : String) (v : ℤ) :
    regKeys (d.map (fun p => if p.1 = k then (k, v) else p)) = regKeys d := by
  unfold regKeys
  rw [List.map_map]
  apply List.map_congr_left
  intro p _
  by_cases hpk : p.1 = k
  · simp [Function.comp, hpk]
  · simp [Function.comp, hpk]

theorem regKeys_dictSet_subset (d : Registry) (k : String) (v : ℤ) :
    ∀ x ∈ regKeys (dictSet d k v), x ∈ regKeys d ∨ x = k := by
  intro x hx
  unfold dictSet at hx
  cases h : hasKey d k with
  | true =>
    rw [h, if_pos rfl, regKeys_update] at hx
    exact Or.inl hx
  | false =>
    rw [h] at hx
    simp only [Bool.false_eq_true, if_false] at hx
    unfold regKeys at hx ⊢
    simp only [List.map_append, List.mem_append, List.map_cons, List.map_nil,
      List.mem_singleton] at hx
    exact hx

theorem regKeys_dictSet_nodup (d : Registry) (k : String) (v : ℤ)
    (h : (regKeys d).Nodup) : (regKeys (dictSet d k v)).Nodup := by
  unfold dictSet
  cases hk : hasKey d k with
  | true =>
    rw [if_pos rfl, regKeys_update]
    exact h
  | false =>
    simp only [Bool.false_eq_true, if_false]
    unfold regKeys at h ⊢
    rw [List.map_append]
    simp only [List.map_cons, List.map_nil]
    rw [List.nodup_append]
    refine ⟨h, List.nodup_singleton k, ?_⟩
    intro x hx
    simp only [List.mem_singleton]
    intro hxk
    subst hxk
    have : hasKey d x = true := (hasKey_iff_mem_regKeys d x).mpr hx
    rw [hk] at this
    exact Bool.false_ne_true this

theorem hasKey_dictSet (d : Registry) (k : String) (v : ℤ) :
    hasKey (dictSet d k v) k = true := by
  rw [hasKey_iff_mem_regKeys]
  unfold dictSet
  cases h : hasKey d k with
  | true =>
    rw [if_pos rfl, regKeys_update]
    exact (hasKey_iff_mem_regKeys d k).mp h
  | false =>
    simp only [Bool.false_eq_true, if_false]
    unfold regKeys
    simp

/-- Two consecutive stores under the same key collapse to the second one. -/
theorem dictSet_dictSet (d : Registry) (k : String) (a b : ℤ) :
    dictSet (dictSet d k a) k b = dictSet d k b := by
  have houter : hasKey (dictSet d k a) k = true := hasKey_dictSet d k a
  unfold dictSet at houter ⊢
  cases h : hasKey d k with
  | true =>
    rw [h, if_pos rfl] at houter
    rw [if_pos rfl, if_pos houter, List.map_map]
    apply List.map_congr_left
    intro p _
    by_cases hpk : p.1 = k
    · simp [Function.comp, hpk]
    · simp [Function.comp, hpk]
  | false =>
    rw [h] at houter
    simp only [Bool.false_eq_true, if_false] at houter ⊢
    rw [if_pos houter]
    rw [List.map_append]
    have hmap : d.map (fun p => if p.1 = k then (k, b) else p) = List.map id d := by
      apply List.map_congr_left
      intro p hp
      have hpk : ¬ p.1 = k := by
        intro he
        have : hasKey d k = true := by
          unfold hasKey
          rw [List.any_eq_true]
          exact ⟨p, hp, decide_eq_true he⟩
        rw [h] at this
        exact Bool.false_ne_true this
      simp [hpk]
    rw [hmap, List.map_id]
    simp

theorem regKeys_dictDel_sublist (d : Registry) (k : String) :
    List.Sublist (regKeys (dictDel d k)) (regKeys d) := by
  unfold dictDel regKeys
  exact (List.filter_sublist d).map Prod.fst

theorem not_mem_regKeys_dictDel (d : Registry) (k : String) :
    k ∉ regKeys (dictDel d k) := by
  unfold dictDel regKeys
  intro h
  simp only [List.mem_map] at h
  obtain ⟨p, hp, hpk⟩ := h
  rw [List.mem_filter] at hp
  have := hp.2
  simp only [Bool.not_eq_true'] at this
  rw [hpk] at this
  simp at this

/-! ## Python `round`

Python 3 `round` rounds to the nearest integer, ties to the nearest even
integer. `worker` computes `round((written / length) * 100)`; `written` and
`length` are Python ints, `/` is exact division, modelled in `ℚ`. -/

/-- Python 3 `round(q)`: nearest integer, ties to even. -/
def pyRound (q : ℚ) : ℤ :=
  if q - (⌊q⌋ : ℚ) < 1 / 2 then ⌊q⌋
  else if (1 : ℚ) / 2 < q - (⌊q⌋ : ℚ) then ⌊q⌋ + 1
  else if ⌊q⌋ % 2 = 0 then ⌊q⌋ else ⌊q⌋ + 1

theorem floor_le_pyRound (q : ℚ) : ⌊q⌋ ≤ pyRound q := by
  unfold pyRound
  split_ifs <;> omega

theorem pyRound_le_floor_add_one (q : ℚ) : pyRound q ≤ ⌊q⌋ + 1 := by
  unfold pyRound
  split_ifs <;> omega

theorem pyRound_mono {q₁ q₂ : ℚ} (h : q₁ ≤ q₂) : pyRound q₁ ≤ pyRound q₂ := by
  have hf : ⌊q₁⌋ ≤ ⌊q₂⌋ := Int.floor_le_floor h
  rcases lt_or_eq_of_le hf with hlt | heq
  · calc pyRound q₁ ≤ ⌊q₁⌋ + 1 := pyRound_le_floor_add_one q₁
      _ ≤ ⌊q₂⌋ := by omega
      _ ≤ pyRound q₂ := floor_le_pyRound q₂
  · unfold pyRound
    rw [heq]
    split_ifs <;> first
      | omega
      | linarith

theorem pyRound_intCast (n : ℤ) : pyRound (n : ℚ) = n := by
  unfold pyRound
  rw [Int.floor_intCast]
  norm_num

theorem pyRound_nonneg {q : ℚ} (h : 0 ≤ q) : 0 ≤ pyRound q := by
  have : (0 : ℤ) ≤ ⌊q⌋ := Int.floor_nonneg.mpr h
  have := floor_le_pyRound q
  omega

theorem pyRound_le_hundred {q : ℚ} (h : q ≤ 100) : pyRound q ≤ 100 := by
  have := pyRound_mono h
  have h100 : pyRound (100 : ℚ) = 100 := by
    have : ((100 : ℤ) : ℚ) = (100 : ℚ) := by norm_num
    rw [← this, pyRound_intCast]
  omega

/-- The percentage the worker stores after writing `written` bytes of a
response declaring `length` bytes: `round((written / length) * 100)`
(line 78 of `scrape.py`). -/
def pyPercent (written : ℤ) (length : ℤ) : ℤ :=
  pyRound (((written : ℚ) / (length : ℚ)) * 100)

theorem pyPercent_mono {w₁ w₂ L : ℤ} (hL : 0 < L) (h : w₁ ≤ w₂) :
    pyPercent w₁ L ≤ pyPercent w₂ L := by
  apply pyRound_mono
  have hLq : (0 : ℚ) < (L : ℚ) := by exact_mod_cast hL
  have : ((w₁ : ℚ)) / (L : ℚ) ≤ ((w₂ : ℚ)) / (L : ℚ) := by
    rw [div_le_div_iff_of_pos_right hLq]
    exact_mod_cast h
  nlinarith

theorem pyPercent_bounds {w L : ℤ} (hL : 0 < L) (h0 : 0 ≤ w) (hw : w ≤ L) :
    0 ≤ pyPercent w L ∧ pyPercent w L ≤ 100 := by
  have hLq : (0 : ℚ) < (L : ℚ) := by exact_mod_cast hL
  have h0q : (0 : ℚ) ≤ (w : ℚ) := by exact_mod_cast h0
  have hwq : ((w : ℚ)) ≤ (L : ℚ) := by exact_mod_cast hw
  have hdiv0 : (0 : ℚ) ≤ ((w : ℚ)) / (L : ℚ) := div_nonneg h0q (le_of_lt hLq)
  have hdiv1 : ((w : ℚ)) / (L : ℚ) ≤ 1 := (div_le_one hLq).mpr hwq
  constructor
  · apply pyRound_nonneg
    nlinarith
  · apply pyRound_le_hundred
    nlinarith

/-! ## `response.iter_content(1024 * 64)`

The worker reads the response body in fixed chunks of `1024 * 64` bytes
(line 75 of `scrape.py`). The body is a byte list; `iter_content`
yields successive slices of at most `size` bytes, the last one possibly
shorter. The recursion is driven by a fuel argument equal to the body
length, which suffices whenever `0 < size`. -/

/-- Chunk size of the streaming download: 64 KiB (line 75). -/
def chunkSize : ℕ := 1024 * 64

/-- Fuel-driven chunking worker for `iter_content`. -/
def iterChunks (size : ℕ) : ℕ → List ℕ → List (List ℕ)
  | _, [] => []
  | 0, l => [l]
  | fuel + 1, a :: as => (a :: as).take size :: iterChunks size fuel ((a :: as).drop size)

/-- `response.iter_content(size)`: the body split into `size`-byte chunks. -/
def iter_content (size : ℕ) (body : List ℕ) : List (List ℕ) :=
  iterChunks size body.length body

theorem iterChunks_join (size : ℕ) (hs : 0 < size) :
    ∀ (fuel : ℕ) (l : List ℕ), l.length ≤ fuel → (iterChunks size fuel l).flatten = l := by
  intro fuel
  induction fuel with
  | zero =>
    intro l hl
    have : l = [] := List.eq_nil_of_length_eq_zero (Nat.le_zero.mp hl)
    subst this
    rfl
  | succ n ih =>
    intro l hl
    cases l with
    | nil => rfl
    | cons a as =>
      rw [iterChunks]
      rw [List.flatten_cons]
      have hdrop : ((a :: as).drop size).length ≤ n := by
        rw [List.length_drop]
        simp only [List.length_cons] at hl ⊢
        omega
      rw [ih _ hdrop]
      exact List.take_append_drop size (a :: as)

theorem iter_content_join (size : ℕ) (hs : 0 < size) (body : List ℕ) :
    (iter_content size body).flatten = body :=
  iterChunks_join size hs body.length body le_rfl

theorem iterChunks_mem (size : ℕ) (hs : 0 < size) :
    ∀ (fuel : ℕ) (l : List ℕ), l.length ≤ fuel →
      ∀ c ∈ iterChunks size fuel l, 0 < c.length ∧ c.length ≤ size := by
  intro fuel
  induction fuel with
  | zero =>
    intro l hl c hc
    have : l = [] := List.eq_nil_of_length_eq_zero (Nat.le_zero.mp hl)
    subst this
    simp [iterChunks] at hc
  | succ n ih =>
    intro l hl c hc
    cases l with
    | nil => simp [iterChunks] at hc
    | cons a as =>
      rw [iterChunks] at hc
      rcases List.mem_cons.mp hc with h | h
      · subst h
        constructor
        · simp only [List.length_take, List.length_cons]
          omega
        · simp only [List.length_take]
          omega
      · have hdrop : ((a :: as).drop size).length ≤ n := by
          rw [List.length_drop]
          simp only [List.length_cons] at hl ⊢
          omega
        exact ih _ hdrop c h

theorem iter_content_mem (size : ℕ) (hs : 0 < size) (body : List ℕ) :
    ∀ c ∈ iter_content size body, 0 < c.length ∧ c.length ≤ size :=
  iterChunks_mem size hs body.length body le_rfl

theorem iterChunks_dropLast (size : ℕ) (hs : 0 < size) :
    ∀ (fuel : ℕ) (l : List ℕ), l.length ≤ fuel →
      ∀ c ∈ (iterChunks size fuel l).dropLast, c.length = size := by
  intro fuel
  induction fuel with
  | zero =>
    intro l hl c hc
    have : l = [] := List.eq_nil_of_length_eq_zero (Nat.le_zero.mp hl)
    subst this
    simp [iterChunks] at hc
  | succ n ih =>
    intro l hl c hc
    cases l with
    | nil => simp [iterChunks] at hc
    | cons a as =>
      rw [iterChunks] at hc
      cases hrest : iterChunks size n ((a :: as).drop size) with
      | nil =>
        rw [hrest] at hc
        simp at hc
      | cons r rs =>
        rw [hrest, List.dropLast_cons_of_ne_nil (List.cons_ne_nil r rs)] at hc
        have hdrop : ((a :: as).drop size).length ≤ n := by
          rw [List.length_drop]
          simp only [List.length_cons] at hl ⊢
          omega
        rcases List.mem_cons.mp hc with h | h
        · subst h
          rw [List.length_take]
          have hne : (a :: as).drop size ≠ [] := by
            intro hnil
            rw [hnil] at hrest
            simp [iterChunks] at hrest
          have : size < (a :: as).length := by
            by_contra hge
            exact hne (List.drop_eq_nil_of_le (Nat.le_of_not_lt hge))
          omega
        · rw [← hrest] at h
          exact ih _ hdrop c h

theorem iter_content_dropLast (size : ℕ) (hs : 0 < size) (body : List ℕ) :
    ∀ c ∈ (iter_content size body).dropLast, c.length = size :=
  iterChunks_dropLast size hs body.length body le_rfl

/-! ## The download worker, one task (lines 59-86 of `scrape.py`)

A queue element is a dict with `url`, `filename` and `display_filename`
(lines 146-150). The HTTP response is modelled by its status code, its
`content-length` header and its body. The header is either absent
(`response.headers["content-length"]` raises `KeyError`), present but not
parseable by `int(...)` (raises `ValueError`), or an integer.

The worker body has no exception handler, so the first raised exception
aborts the processing of the task (and, since the surrounding `while` loop
does not catch it either, kills the worker thread). `processTask` returns
the state the task processing leaves behind: the registry, the bytes
written to the destination file (`none` when `open` was never reached),
the sequence of percent values stored in the registry entry, whether
`queue.task_done()` was reached, and the escaping exception if any. -/

/-- A queue element (lines 146-150 of `scrape.py`). -/
structure Task where
  url : String
  filename : String
  display_filename : String
  deriving DecidableEq

/-- The `content-length` header as seen by `int(response.headers[...])`. -/
inductive HeaderVal where
  | missing : HeaderVal
  | invalid : HeaderVal
  | value : ℤ → HeaderVal
  deriving DecidableEq

/-- The download response for one task. -/
structure Response where
  status : ℕ
  contentLength : HeaderVal
  body : List ℕ
  deriving DecidableEq

/-- `response.raise_for_status()` does not raise exactly when the status
code is below 400. -/
def statusOk (status : ℕ) : Bool :=
  decide (status < 400)

/-- The exception escaping the worker body, when one is raised. -/
inductive WorkerError where
  | httpStatus : ℕ → WorkerError
  | missingHeader : WorkerError
  | invalidHeader : WorkerError
  | zeroDivision : WorkerError
  deriving DecidableEq

/-- State of the chunk loop (lines 73-81): bytes written to the file,
the `written` counter, the percent values stored so far, the registry. -/
structure ChunkState where
  file : List ℕ
  written : ℤ
  ups : List ℤ
  reg : Registry
  deriving DecidableEq

/-- The chunk loop (lines 75-81): write the chunk, bump `written`,
store `round((written / length) * 100)` under the task's display key.
When `length = 0` the percent expression raises `ZeroDivisionError`
after the chunk has been written. -/
def runChunks (key : String) (length : ℤ) :
    ChunkState → List (List ℕ) → ChunkState × Option WorkerError
  | st, [] => (st, none)
  | st, c :: cs =>
    if length = 0 then
      (⟨st.file ++ c, st.written + (c.length : ℤ), st.ups, st.reg⟩, some .zeroDivision)
    else
      runChunks key length
        ⟨st.file ++ c, st.written + (c.length : ℤ),
          st.ups ++ [pyPercent (st.written + (c.length : ℤ)) length],
          dictSet st.reg key (pyPercent (st.written + (c.length : ℤ)) length)⟩ cs

/-- What processing one task leaves behind. -/
structure TaskOutcome where
  registry : Registry
  file : Option (List ℕ)
  updates : List ℤ
  taskDone : Bool
  err : Option WorkerError
  deriving DecidableEq

/-- Lines 65-86 of `scrape.py`: insert the display key at 0, issue the GET
(`raise_for_status`), parse `content-length`, stream the body in
`chunkSize` chunks, delete the registry entry, call `queue.task_done()`.
Any exception aborts immediately: no handler, no entry removal, no
completion signal. -/
def processTask (reg : Registry) (t : Task) (resp : Response) : TaskOutcome :=
  let reg1 := dictSet reg t.display_filename 0
  if statusOk resp.status = false then
    ⟨reg1, none, [], false, some (.httpStatus resp.status)⟩
  else
    match resp.contentLength with
    | .missing => ⟨reg1, none, [], false, some .missingHeader⟩
    | .invalid => ⟨reg1, none, [], false, some .invalidHeader⟩
    | .value length =>
      let r := runChunks t.display_filename length ⟨[], 0, [], reg1⟩
        (iter_content chunkSize resp.body)
      match r.2 with
      | some e => ⟨r.1.reg, some r.1.file, r.1.ups, false, some e⟩
      | none => ⟨dictDel r.1.reg t.display_filename, some r.1.file, r.1.ups, true, none⟩

/-- The worker's `while` loop (lines 60-86), run over a finite schedule of
tasks with their responses: processes tasks in order, counting
`task_done()` signals, until an exception kills the thread. -/
def workerLoop (reg : Registry) (signals : ℕ) :
    List (Task × Response) → Registry × ℕ × Option WorkerError
  | [] => (reg, signals, none)
  | (t, r) :: rest =>
    let o := processTask reg t r
    match o.err with
    | some e => (o.registry, signals, some e)
    | none => workerLoop o.registry (signals + 1) rest

/-- `queue.join()` (line 152) returns exactly when every enqueued task has
been matched by a `task_done()` call. -/
def drainReturns (jobs : List (Task × Response)) : Prop :=
  (workerLoop [] 0 jobs).2.1 = jobs.length

instance (jobs : List (Task × Response)) : Decidable (drainReturns jobs) := by
  unfold drainReturns
  infer_instance

/-- Running sums `w + c₁, w + c₁ + c₂, …` of the chunk lengths: the values
of the `written` counter after each chunk. -/
def prefixTotals (w : ℤ) : List (List ℕ) → List ℤ
  | [] => []
  | c :: cs => (w + (c.length : ℤ)) :: prefixTotals (w + (c.length : ℤ)) cs

theorem runChunks_zero_length (key : String) (st : ChunkState)
    (cs : List (List ℕ)) : (runChunks key 0 st cs).1.ups = st.ups := by
  cases cs with
  | nil => rfl
  | cons c cs' => simp [runChunks]

theorem runChunks_pos_length (key : String) (L : ℤ) (hL : L ≠ 0) :
    ∀ (cs : List (List ℕ)) (st : ChunkState),
      runChunks key L st cs =
        (⟨st.file ++ cs.flatten, st.written + (cs.flatten.length : ℤ),
          st.ups ++ (prefixTotals st.written cs).map (fun w => pyPercent w L),
          if cs = [] then st.reg
          else dictSet st.reg key (pyPercent (st.written + (cs.flatten.length : ℤ)) L)⟩,
          none) := by
  intro cs
  induction cs with
  | nil =>
    intro st
    simp [runChunks, prefixTotals]
  | cons c cs' ih =>
    intro st
    rw [runChunks]
    rw [if_neg hL]
    rw [ih]
    simp only [List.flatten_cons, prefixTotals, List.map_cons, Prod.mk.injEq,
      ChunkState.mk.injEq, and_true]
    refine ⟨?_, ?_, ?_, ?_⟩
    · rw [List.append_assoc]
    · push_cast [List.length_append]
      ring
    · rw [List.append_assoc]
      rfl
    · cases hcs : cs' with
      | nil =>
        simp [hcs]
      | cons d ds =>
        rw [if_neg (by simp [hcs])]
        rw [if_neg (by simp)]
        rw [dictSet_dictSet]
        push_cast [List.length_append]
        ring_nf

/-! ## The task producer (lines 139-150 of `scrape.py`)

For each discovered episode the producer derives the file extension from
the URL (`episode["url"].split(".")[-1]`), the display filename
(`title + "." + extension`), and the destination path
(`os.path.join(output, display_filename)`, modelled as `output ++ "/" ++
display_filename`); episodes whose destination path already exists are
skipped with `continue`, all others are put on the queue. `existing` is
the set of paths for which `os.path.exists` answers true. -/

/-- A discovery item: `{"title": ..., "url": ...}` (lines 43-46). -/
structure Episode where
  title : String
  url : String
  deriving DecidableEq

/-- The characters of the current split segment are accumulated in
reverse; a separator starts a new segment; at the end the last segment is
returned. -/
def lastSegment (sep : Char) : List Char → List Char → List Char
  | acc, [] => acc.reverse
  | acc, c :: rest =>
    if c = sep then lastSegment sep [] rest else lastSegment sep (c :: acc) rest

/-- `episode["url"].split(".")[-1]` (line 140): the part of the URL after
its last dot, or the whole URL when it has none. -/
def urlExtension (url : String) : String :=
  ⟨lastSegment '.' [] url.data⟩

/-- `episode["title"] + "." + extension` (line 141). -/
def displayFilename (e : Episode) : String :=
  e.title ++ "." ++ urlExtension e.url

/-- `os.path.join(args.output, display_filename)` (line 142). -/
def destPath (out : String) (e : Episode) : String :=
  out ++ "/" ++ displayFilename e

/-- The queue element built for an episode (lines 146-150). -/
def mkTask (out : String) (e : Episode) : Task :=
  ⟨e.url, destPath out e, displayFilename e⟩

/-- The producer loop (lines 139-150): skip episodes whose destination
exists, enqueue a task for every other episode, in discovery order. -/
def produceTasks (existing : List String) (out : String)
    (episodes : List Episode) : List Task :=
  (episodes.filter (fun e => !(existing.contains (destPath out e)))).map (mkTask out)

/-! ## The console renderer (lines 95-115 of `scrape.py`)

One iteration of `downloading_info_thread` works on the persisted string
`s`. Every line it ever prints ends in `"\x1b[K\n"` (clear to end of
line, then newline), so printed output is modelled at line granularity: a
content line carries the text `"Downloading {filename}... {percent}%"`,
a blank cleared line is `""`. The terminal is a list of lines plus a
cursor row; writing a line overwrites the row completely (the trailing
`\x1b[K` erases the remainder) and moves the cursor down;
`"\x1b[{n}F"` moves the cursor to the start of the line `n` rows up. -/

/-- A terminal screen: its lines and the cursor row. -/
structure Term where
  lines : List String
  row : ℕ
  deriving DecidableEq

/-- Print one `\x1b[K`-terminated line at the cursor row. -/
def writeTermLine (t : Term) (content : String) : Term :=
  ⟨if t.row < t.lines.length then t.lines.set t.row content
    else t.lines ++ [content], t.row + 1⟩

/-- Print a block of lines starting at the cursor row. -/
def writeTermLines (t : Term) (ls : List String) : Term :=
  ls.foldl writeTermLine t

/-- `print(f"\x1b[{n}F")`: cursor to the start of the line `n` rows up. -/
def cursorUpTerm (t : Term) (n : ℕ) : Term :=
  ⟨t.lines, t.row - n⟩

/-- The text of one status line (line 106):
`"Downloading {filename}... {p}%"`. -/
def renderLine (filename : String) (p : ℤ) : String :=
  "Downloading " ++ filename ++ "... " ++ toString p ++ "%"

/-- One iteration of the renderer loop (lines 98-115), applied to the
terminal. `prev` is the block persisted in `s` from the previous
iteration (its `\n` count is `old_lines`), `snap` is the registry content
read under the lock. Returns the terminal after the iteration and the
block persisted in `s` for the next one. When the registry is empty
nothing is printed (line 107 guard) and `s` stays empty; otherwise the
new block, padded with cleared lines up to the old height, is printed
and persisted. -/
def rendererTick (t : Term) (prev : List String) (snap : List (String × ℤ)) :
    Term × List String :=
  let t1 := if prev.length ≠ 0 then cursorUpTerm t prev.length else t
  let content := snap.map (fun e => renderLine e.1 e.2)
  if snap.length ≠ 0 then
    let padded := if content.length < prev.length then
        content ++ List.replicate (prev.length - content.length) ""
      else content
    (writeTermLines t1 padded, padded)
  else (t1, [])

/-- Number of status lines (non-cleared lines) in a block. -/
def contentLineCount (ls : List String) : ℕ :=
  (ls.filter (fun l => !(l = "" : Bool))).length

/-! ## Lock-scope traces (claims about lock discipline)

The atomic actions a thread performs, in program order, abstracted from
the worker body (lines 65-86) and one renderer iteration (lines 98-115).
`ioWhileLocked` scans a trace and reports whether a network, disk or
terminal action happens while the `currently_downloading` lock is held. -/

/-- Atomic actions of the worker and renderer threads. -/
inductive Act where
  | lock : Act
  | unlock : Act
  | reg : Act
  | net : Act
  | disk : Act
  | term : Act
  | fmt : Act
  deriving DecidableEq

/-- Actions that are network, disk or terminal I/O. -/
def ioAct : Act → Bool
  | .net => true
  | .disk => true
  | .term => true
  | _ => false

/-- Does some I/O action occur between a `lock` and its `unlock`? -/
def ioWhileLocked : Bool → List Act → Bool
  | _, [] => false
  | _, .lock :: r => ioWhileLocked true r
  | _, .unlock :: r => ioWhileLocked false r
  | held, a :: r => (held && ioAct a) || ioWhileLocked held r

/-- The actions of one chunk iteration (lines 75-81): read the chunk from
the socket, write it to the file, format the percent, then update the
registry under the lock. -/
def chunkActs : List Act :=
  [.net, .disk, .fmt, .lock, .reg, .unlock]

/-- The worker's actions for one task with `n` chunks (lines 65-86):
registry insert under the lock (65-68), the GET with `raise_for_status`
and header read (69-71), opening the file (73), the chunk loop, closing
the file (end of `with`), registry delete under the lock (83-85). -/
def workerTaskTrace (n : ℕ) : List Act :=
  [.lock, .reg, .unlock, .net, .disk] ++ (List.replicate n chunkActs).flatten
    ++ [.disk, .lock, .reg, .unlock]

/-- One renderer iteration with `old` previous lines and `entries`
registry entries (lines 98-115): the cursor-up print (100-101), then the
lock is taken (104), the registry is read and formatted entry by entry
(105-106), and — still under the lock — the padding is formatted and the
block is printed (107-113) before the lock is released (114). -/
def rendererTickTrace (old entries : ℕ) : List Act :=
  (if old ≠ 0 then [Act.term] else []) ++ [Act.lock]
    ++ (List.replicate entries [Act.reg, Act.fmt]).flatten
    ++ (if entries ≠ 0 then [Act.fmt, Act.term] else []) ++ [Act.unlock]

/-! ## The worker pool as a transition system

For the reachable-state claims the whole pool is modelled as a small-step
system. A worker is, at any instant, idle (waiting on `queue.get`), busy
with the task of display key `k` (between the registry insert at line 67
and the delete at line 84), or dead after an uncaught exception (the
thread has exited; the registry entry it inserted is still present — the
worker body removes it only on the success path). Transitions mutate the
registry exactly as the worker body does: insert at 0 on start, store a
percent per chunk, delete on success; a crash leaves the registry
untouched. `done` counts `queue.task_done()` calls. -/

/-- The phase of one worker thread. -/
inductive WPhase where
  | idle : WPhase
  | busy : String → WPhase
  | dead : String → WPhase
  deriving DecidableEq

/-- The registry key a worker currently holds the entry for, if any. -/
def phaseKey : WPhase → Option String
  | .idle => none
  | .busy k => some k
  | .dead k => some k

/-- Keys held by some worker of the pool. -/
def heldKeys (ws : List WPhase) : List String :=
  ws.filterMap phaseKey

/-- Global state: the worker pool, the queued task keys, the
`currently_downloading` dict, and the `task_done` count. -/
structure Sys where
  workers : List WPhase
  pending : List String
  registry : Registry
  done : ℕ
  deriving DecidableEq

/-- The initial state of `main` (lines 124-136): `W` idle workers, the
enqueued task keys, an empty registry. -/
def initSys (w : ℕ) (tasks : List String) : Sys :=
  ⟨List.replicate w .idle, tasks, [], 0⟩

/-- One step of some worker thread, following the worker body. -/
inductive Step : Sys → Sys → Prop
  | start (s : Sys) (i : ℕ) (k : String) (rest : List String)
      (hw : s.workers[i]? = some .idle) (hq : s.pending = k :: rest) :
      Step s ⟨s.workers.set i (.busy k), rest, dictSet s.registry k 0, s.done⟩
  | progress (s : Sys) (i : ℕ) (k : String) (p : ℤ)
      (hw : s.workers[i]? = some (.busy k)) :
      Step s ⟨s.workers, s.pending, dictSet s.registry k p, s.done⟩
  | finish (s : Sys) (i : ℕ) (k : String)
      (hw : s.workers[i]? = some (.busy k)) :
      Step s ⟨s.workers.set i .idle, s.pending, dictDel s.registry k, s.done + 1⟩
  | crash (s : Sys) (i : ℕ) (k : String)
      (hw : s.workers[i]? = some (.busy k)) :
      Step s ⟨s.workers.set i (.dead k), s.pending, s.registry, s.done⟩

/-- States reachable from `initSys w tasks`. -/
def Reachable (w : ℕ) (tasks : List String) (s : Sys) : Prop :=
  Relation.ReflTransGen Step (initSys w tasks) s

/-- The pool invariant: every registry key is held by some worker, the
registry keys are distinct, and the pool size is fixed. -/
def SysInv (w : ℕ) (s : Sys) : Prop :=
  (∀ x ∈ regKeys s.registry, x ∈ heldKeys s.workers) ∧
    (regKeys s.registry).Nodup ∧ s.workers.length = w

theorem mem_heldKeys_iff (ws : List WPhase) (x : String) :
    x ∈ heldKeys ws ↔ ∃ i : ℕ, ∃ ph, ws[i]? = some ph ∧ phaseKey ph = some x := by
  unfold heldKeys
  rw [List.mem_filterMap]
  constructor
  · rintro ⟨ph, hph, hkey⟩
    obtain ⟨i, hi⟩ := List.mem_iff_getElem?.mp hph
    exact ⟨i, ph, hi, hkey⟩
  · rintro ⟨i, ph, hi, hkey⟩
    exact ⟨ph, List.mem_iff_getElem?.mpr ⟨i, hi⟩, hkey⟩

theorem heldKeys_set (ws : List WPhase) (i : ℕ) (ph : WPhase) (x : String)
    (hmem : x ∈ heldKeys ws)
    (hother : ∀ ph₀, ws[i]? = some ph₀ → phaseKey ph₀ = some x → phaseKey ph = some x) :
    x ∈ heldKeys (ws.set i ph) := by
  obtain ⟨j, ph₀, hj, hkey⟩ := (mem_heldKeys_iff ws x).mp hmem
  by_cases hij : j = i
  · subst hij
    have hlt : j < ws.length := by
      by_contra hge
      rw [List.getElem?_eq_none (Nat.le_of_not_lt hge)] at hj
      exact Option.noConfusion hj
    refine (mem_heldKeys_iff _ x).mpr ⟨j, ph, ?_, hother ph₀ hj hkey⟩
    rw [List.getElem?_set_self']
    rw [List.getElem?_eq_getElem hlt]
    rfl
  · refine (mem_heldKeys_iff _ x).mpr ⟨j, ph₀, ?_, hkey⟩
    rw [List.getElem?_set_ne (by omega)]
    exact hj

theorem sysInv_preserved {w : ℕ} {s s' : Sys} (hinv : SysInv w s)
    (hstep : Step s s') : SysInv w s' := by
  obtain ⟨hheld, hnodup, hlen⟩ := hinv
  cases hstep with
  | start i k rest hw hq =>
    refine ⟨?_, regKeys_dictSet_nodup _ _ _ hnodup, by simpa using hlen⟩
    intro x hx
    rcases regKeys_dictSet_subset s.registry k 0 x hx with hold | hnew
    · refine heldKeys_set s.workers i _ x (hheld x hold) ?_
      intro ph₀ hph₀ hkey
      rw [hw] at hph₀
      cases Option.some.injEq .. ▸ hph₀ with
      | refl => exact absurd hkey (by simp [phaseKey])
    · subst hnew
      have hlt : i < s.workers.length := by
        by_contra hge
        rw [List.getElem?_eq_none (Nat.le_of_not_lt hge)] at hw
        exact Option.noConfusion hw
      refine (mem_heldKeys_iff _ x).mpr ⟨i, .busy x, ?_, rfl⟩
      rw [List.getElem?_set_self']
      rw [List.getElem?_eq_getElem hlt]
      rfl
  | progress i k p hw =>
    refine ⟨?_, regKeys_dictSet_nodup _ _ _ hnodup, hlen⟩
    intro x hx
    rcases regKeys_dictSet_subset s.registry k p x hx with hold | hnew
    · exact hheld x hold
    · subst hnew
      exact (mem_heldKeys_iff _ x).mpr ⟨i, .busy x, hw, rfl⟩
  | finish i k hw =>
    refine ⟨?_, (regKeys_dictDel_sublist _ _).nodup hnodup, by simpa using hlen⟩
    intro x hx
    have hxk : x ≠ k := by
      intro he
      subst he
      exact not_mem_regKeys_dictDel s.registry x hx
    have hold : x ∈ regKeys s.registry :=
      (regKeys_dictDel_sublist s.registry k).subset hx
    refine heldKeys_set s.workers i _ x (hheld x hold) ?_
    intro ph₀ hph₀ hkey
    rw [hw] at hph₀
    cases Option.some.injEq .. ▸ hph₀ with
    | refl =>
      exfalso
      apply hxk
      simpa [phaseKey] using hkey.symm
  | crash i k hw =>
    refine ⟨?_, hnodup, by simpa using hlen⟩
    intro x hx
    refine heldKeys_set s.workers i _ x (hheld x hx) ?_
    intro ph₀ hph₀ hkey
    rw [hw] at hph₀
    cases Option.some.injEq .. ▸ hph₀ with
    | refl => simpa [phaseKey] using hkey

theorem sysInv_init (w : ℕ) (tasks : List String) : SysInv w (initSys w tasks) := by
  refine ⟨?_, ?_, ?_⟩
  · intro x hx
    simp [initSys, regKeys] at hx
  · simp [initSys, regKeys]
  · simp [initSys]

theorem sysInv_reachable {w : ℕ} {tasks : List String} {s : Sys}
    (h : Reachable w tasks s) : SysInv w s := by
  induction h with
  | refl => exact sysInv_init w tasks
  | tail _ hstep ih => exact sysInv_preserved ih hstep

/-- `WORKER_COUNT` (line 11 of `scrape.py`). -/
def WORKER_COUNT : ℕ := 8

/-! ## The claims -/

/-- C1: the spec demands that every successful pop is eventually paired
with exactly one task-completion signal so that `queue.join()` returns in
finite time even when tasks fail. The code violates this:
`queue.task_done()` (line 86) is reached only on the success path, so a
single enqueued task whose response has HTTP status 404 is popped but
never signals completion — the outstanding count stays at 1 and the drain
never returns. -/
theorem C1_drain_stalls_on_failed_task :
    ¬ drainReturns [(⟨"https://ex/ep.mp3", "episodes/ep.mp3", "ep.mp3"⟩,
      ⟨404, .value 10, [1]⟩)] := by
  decide

/-- C2: the spec demands that a per-task failure is caught inside the
worker, still removes the registry entry and still signals completion.
The code violates this: on an HTTP 404 the `raise_for_status` exception
escapes (there is no handler in `worker`), the registry keeps the entry
`display_filename ↦ 0`, no bytes are written, and `task_done` is never
called. -/
theorem C2_failure_not_caught_locally :
    processTask [] ⟨"https://ex/ep.mp3", "episodes/ep.mp3", "ep.mp3"⟩
        ⟨404, .value 10, [1]⟩ =
      ⟨[("ep.mp3", 0)], none, [], false, some (.httpStatus 404)⟩ := by
  decide

/-- C3: the spec's invariant — a key is in the registry iff a download for
it is in progress, the entry being removed also after a failure. The code
violates this: from one worker and one task whose download fails, the
system reaches a state whose registry still contains the key while no
worker is downloading it (the worker thread is dead). -/
theorem C3_leaked_entry_reachable :
    ∃ s : Sys, Reachable 1 ["ep.mp3"] s ∧ "ep.mp3" ∈ regKeys s.registry ∧
      ∀ ph ∈ s.workers, ph ≠ WPhase.busy "ep.mp3" := by
  refine ⟨⟨[.dead "ep.mp3"], [], [("ep.mp3", 0)], 0⟩, ?_, ?_, ?_⟩
  · have h1 : Step (initSys 1 ["ep.mp3"])
        ⟨[.busy "ep.mp3"], [], [("ep.mp3", 0)], 0⟩ :=
      Step.start (initSys 1 ["ep.mp3"]) 0 "ep.mp3" [] rfl rfl
    have h2 : Step ⟨[.busy "ep.mp3"], [], [("ep.mp3", 0)], 0⟩
        ⟨[.dead "ep.mp3"], [], [("ep.mp3", 0)], 0⟩ :=
      Step.crash ⟨[.busy "ep.mp3"], [], [("ep.mp3", 0)], 0⟩ 0 "ep.mp3" rfl
    exact Relation.ReflTransGen.head h1 (Relation.ReflTransGen.single h2)
  · simp [regKeys]
  · decide

/-- C4: with `N` tasks enqueued and `W` workers, `N > W`, every reachable
state has at most `W` registry entries: each worker inserts one entry when
it starts a task and holds at most that one key (even a crashed worker
leaks only the single key it held), and the registry keys stay distinct. -/
theorem C4_registry_bounded (w : ℕ) (tasks : List String) (s : Sys)
    (_hN : tasks.length > w) (h : Reachable w tasks s) :
    s.registry.length ≤ w := by
  obtain ⟨hheld, hnodup, hlen⟩ := sysInv_reachable h
  have h1 : s.registry.length = (regKeys s.registry).length := by
    unfold regKeys
    rw [List.length_map]
  have h2 : (regKeys s.registry).length ≤ (heldKeys s.workers).length :=
    (hnodup.subperm (fun _ hx => hheld _ hx)).length_le
  have h3 : (heldKeys s.workers).length ≤ s.workers.length :=
    List.length_filterMap_le phaseKey s.workers
  omega

/-- Witness for C4: the initial state of a run with 9 tasks and the
source's 8 workers is reachable and its registry size is at most 8. -/
theorem C4_witness :
    (initSys WORKER_COUNT ["e1", "e2", "e3", "e4", "e5", "e6", "e7", "e8",
      "e9"]).registry.length ≤ WORKER_COUNT :=
  C4_registry_bounded WORKER_COUNT _ _ (by decide) Relation.ReflTransGen.refl

/-- C10: a task whose response declares `content-length: 0` with an empty
body completes normally: `iter_content` yields no chunk, so the percent
expression (and its division by `length`) is never evaluated, no update is
stored, the file is created empty, the entry is inserted at 0 and deleted
again, and completion is signaled — the division sits inside the chunk
loop and is only reached after a chunk has been received. -/
theorem C10_zero_byte_download (reg : Registry) (t : Task) (st : ℕ)
    (h : st < 400) :
    processTask reg t ⟨st, .value 0, []⟩ =
      ⟨dictDel (dictSet reg t.display_filename 0) t.display_filename,
        some [], [], true, none⟩ := by
  have hok : statusOk st = true := by
    unfold statusOk
    exact decide_eq_true h
  unfold processTask
  simp [hok, iter_content, iterChunks, runChunks]

/-- Witness for C10 at a concrete zero-byte response. -/
theorem C10_witness :
    processTask [] ⟨"https://ex/ep.mp3", "episodes/ep.mp3", "ep.mp3"⟩
        ⟨200, .value 0, []⟩ =
      ⟨[], some [], [], true, none⟩ :=
  C10_zero_byte_download [] ⟨"https://ex/ep.mp3", "episodes/ep.mp3", "ep.mp3"⟩
    200 (by decide)

/-- C5: episodes whose destination path already exists contribute no queue
element (removing such an episode from the discovery sequence leaves the
produced task list unchanged), and every task that is produced — hence
every download request a worker will issue — has a destination that did
not exist; re-running after a partial run therefore re-downloads nothing. -/
theorem C5_skip_existing (existing : List String) (out : String)
    (es₁ es₂ : List Episode) (e : Episode)
    (h : existing.contains (destPath out e) = true) :
    produceTasks existing out (es₁ ++ e :: es₂) =
      produceTasks existing out (es₁ ++ es₂) ∧
    ∀ t ∈ produceTasks existing out (es₁ ++ e :: es₂),
      existing.contains t.filename = false := by
  constructor
  · unfold produceTasks
    rw [List.filter_append, List.filter_append, List.filter_cons]
    have hmem : destPath out e ∈ existing := by simpa using h
    simp [hmem]
  · intro t ht
    unfold produceTasks at ht
    obtain ⟨e', he', het⟩ := List.mem_map.mp ht
    rw [List.mem_filter] at he'
    have hne := he'.2
    rw [Bool.not_eq_true'] at hne
    have : t.filename = destPath out e' := by
      rw [← het]
      rfl
    rw [this]
    exact hne

/-- Witness for C5: an episode whose destination exists produces no task,
a fresh one produces its task. -/
theorem C5_witness :
    produceTasks ["out/a.mp3"] "out"
        ([⟨"a", "http://x/a.mp3"⟩] ++ ⟨"a", "http://x/a.mp3"⟩ :: [⟨"b", "http://x/b.mp3"⟩]) =
      produceTasks ["out/a.mp3"] "out"
        ([⟨"a", "http://x/a.mp3"⟩] ++ [⟨"b", "http://x/b.mp3"⟩]) :=
  (C5_skip_existing ["out/a.mp3"] "out" [⟨"a", "http://x/a.mp3"⟩]
    [⟨"b", "http://x/b.mp3"⟩] ⟨"a", "http://x/a.mp3"⟩ (by decide)).1

/-- The `written` counter only grows along the chunk loop. -/
theorem prefixTotals_chain (w : ℤ) (cs : List (List ℕ)) :
    List.Chain' (· ≤ ·) (prefixTotals w cs) := by
  induction cs generalizing w with
  | nil => exact List.chain'_nil
  | cons c cs' ih =>
    rw [prefixTotals]
    cases cs' with
    | nil => exact List.chain'_singleton _
    | cons d ds =>
      rw [prefixTotals]
      rw [List.chain'_cons]
      refine ⟨?_, ?_⟩
      · have : (0 : ℤ) ≤ (d.length : ℤ) := Int.ofNat_nonneg d.length
        omega
      · have := ih (w + (c.length : ℤ))
        rw [prefixTotals] at this
        exact this

/-- Every value of the `written` counter lies between its start value and
the start value plus the total number of chunk bytes. -/
theorem prefixTotals_mem_bounds (w : ℤ) (cs : List (List ℕ)) :
    ∀ x ∈ prefixTotals w cs, w ≤ x ∧ x ≤ w + (cs.flatten.length : ℤ) := by
  induction cs generalizing w with
  | nil =>
    intro x hx
    simp [prefixTotals] at hx
  | cons c cs' ih =>
    intro x hx
    rw [prefixTotals] at hx
    have hclen : (0 : ℤ) ≤ (c.length : ℤ) := Int.ofNat_nonneg c.length
    have hflat : (List.flatten (c :: cs')).length = c.length + cs'.flatten.length := by
      rw [List.flatten_cons, List.length_append]
    rcases List.mem_cons.mp hx with hhead | htail
    · subst hhead
      have : (0 : ℤ) ≤ (cs'.flatten.length : ℤ) := Int.ofNat_nonneg _
      constructor
      · omega
      · rw [hflat]
        push_cast
        omega
    · have := ih (w + (c.length : ℤ)) x htail
      constructor
      · omega
      · rw [hflat]
        push_cast
        push_cast at this
        omega

/-- Under an OK status and a parseable `content-length`, the update
sequence of `processTask` is the one the chunk loop produces. -/
theorem processTask_updates (reg : Registry) (t : Task) (resp : Response)
    (L : ℤ) (hok : statusOk resp.status = true)
    (hcl : resp.contentLength = .value L) :
    (processTask reg t resp).updates =
      (runChunks t.display_filename L ⟨[], 0, [], dictSet reg t.display_filename 0⟩
        (iter_content chunkSize resp.body)).1.ups := by
  unfold processTask
  rw [hok, hcl]
  simp only [Bool.true_eq_false, if_false]
  cases hrun : (runChunks t.display_filename L
      ⟨[], 0, [], dictSet reg t.display_filename 0⟩
      (iter_content chunkSize resp.body)).2 with
  | none => simp [hrun]
  | some e => simp [hrun]

/-- C6: for a download whose response is OK, declares a non-negative
`content-length`, and whose body is no longer than declared, the sequence
of percent values stored in the registry entry is non-decreasing and every
value lies in `[0, 100]`. -/
theorem C6_percent_monotone_bounded (reg : Registry) (t : Task)
    (resp : Response) (L : ℤ) (hok : statusOk resp.status = true)
    (hcl : resp.contentLength = .value L) (hL : 0 ≤ L)
    (hbody : (resp.body.length : ℤ) ≤ L) :
    List.Chain' (· ≤ ·) (processTask reg t resp).updates ∧
    ∀ p ∈ (processTask reg t resp).updates, 0 ≤ p ∧ p ≤ 100 := by
  rw [processTask_updates reg t resp L hok hcl]
  by_cases hL0 : L = 0
  · subst hL0
    rw [runChunks_zero_length]
    exact ⟨List.chain'_nil, by intro p hp; simp at hp⟩
  · have hpos : 0 < L := lt_of_le_of_ne hL (Ne.symm hL0)
    rw [runChunks_pos_length t.display_filename L hL0]
    simp only [List.nil_append]
    have hjoin : (iter_content chunkSize resp.body).flatten = resp.body :=
      iter_content_join chunkSize (by norm_num [chunkSize]) resp.body
    constructor
    · exact List.chain'_map_of_chain' _
        (fun a b hab => pyPercent_mono hpos hab)
        (prefixTotals_chain 0 (iter_content chunkSize resp.body))
    · intro p hp
      obtain ⟨x, hx, hxp⟩ := List.mem_map.mp hp
      obtain ⟨hx0, hxtot⟩ := prefixTotals_mem_bounds 0 _ x hx
      rw [hjoin] at hxtot
      have hxL : x ≤ L := by omega
      have := pyPercent_bounds hpos (by omega) hxL
      rw [← hxp]
      exact this

/-- Witness for C6: a 2-byte body declared as 2 bytes yields the single
percent value 100. -/
theorem C6_witness :
    List.Chain' (· ≤ ·)
      (processTask [] ⟨"https://ex/ep.mp3", "episodes/ep.mp3", "ep.mp3"⟩
        ⟨200, .value 2, [7, 9]⟩).updates :=
  (C6_percent_monotone_bounded [] ⟨"https://ex/ep.mp3", "episodes/ep.mp3", "ep.mp3"⟩
    ⟨200, .value 2, [7, 9]⟩ 2 (by decide) rfl (by decide) (by decide)).1

/-- C7: under an OK status and a non-zero declared length, the worker
streams the body in chunks of exactly `1024 * 64` bytes (every chunk but
the last is full, none is empty or larger), the destination file receives
exactly the body bytes, and after each chunk the registry entry is set to
`round(written / length * 100)` where `written` is the running byte
total. -/
theorem C7_streaming_steps (reg : Registry) (t : Task) (resp : Response)
    (L : ℤ) (hok : statusOk resp.status = true)
    (hcl : resp.contentLength = .value L) (hL : L ≠ 0) :
    (processTask reg t resp).file = some resp.body ∧
    (processTask reg t resp).updates =
      (prefixTotals 0 (iter_content chunkSize resp.body)).map
        (fun w => pyPercent w L) ∧
    (∀ c ∈ (iter_content chunkSize resp.body).dropLast, c.length = 1024 * 64) ∧
    (∀ c ∈ iter_content chunkSize resp.body, 0 < c.length ∧ c.length ≤ 1024 * 64) := by
  have hchunk : (0 : ℕ) < chunkSize := by norm_num [chunkSize]
  have hjoin : (iter_content chunkSize resp.body).flatten = resp.body :=
    iter_content_join chunkSize hchunk resp.body
  refine ⟨?_, ?_, ?_, ?_⟩
  · unfold processTask
    rw [hok, hcl]
    simp only [Bool.true_eq_false, if_false]
    rw [runChunks_pos_length t.display_filename L hL]
    simp [hjoin]
  · rw [processTask_updates reg t resp L hok hcl]
    rw [runChunks_pos_length t.display_filename L hL]
    simp
  · exact iter_content_dropLast chunkSize hchunk resp.body
  · exact iter_content_mem chunkSize hchunk resp.body

/-- Witness for C7: a 2-byte body declared as 2 bytes is written verbatim
to the file. -/
theorem C7_witness :
    (processTask [] ⟨"https://ex/ep.mp3", "episodes/ep.mp3", "ep.mp3"⟩
      ⟨200, .value 2, [7, 9]⟩).file = some [7, 9] :=
  (C7_streaming_steps [] ⟨"https://ex/ep.mp3", "episodes/ep.mp3", "ep.mp3"⟩
    ⟨200, .value 2, [7, 9]⟩ 2 (by decide) rfl (by decide)).1

theorem writeTermLine_inbounds (t : Term) (a : String)
    (h : t.row < t.lines.length) :
    writeTermLine t a = ⟨t.lines.set t.row a, t.row + 1⟩ := by
  unfold writeTermLine
  rw [if_pos h]

/-- Printing a block that exactly fills the screen from the cursor down
replaces everything from the cursor on and leaves the cursor at the
bottom. -/
theorem writeTermLines_fill (ls : List String) :
    ∀ t : Term, t.row + ls.length = t.lines.length →
      writeTermLines t ls = ⟨t.lines.take t.row ++ ls, t.lines.length⟩ := by
  induction ls with
  | nil =>
    intro t h
    unfold writeTermLines
    rw [List.foldl_nil]
    simp only [List.length_nil, Nat.add_zero] at h
    cases t with
    | mk lines row =>
      simp only at h
      subst h
      rw [List.take_length, List.append_nil]
  | cons a as ih =>
    intro t h
    unfold writeTermLines at ih ⊢
    rw [List.foldl_cons]
    have hrow : t.row < t.lines.length := by
      simp only [List.length_cons] at h
      omega
    rw [writeTermLine_inbounds t a hrow]
    have h2 : (⟨t.lines.set t.row a, t.row + 1⟩ : Term).row + as.length =
        (⟨t.lines.set t.row a, t.row + 1⟩ : Term).lines.length := by
      simp only [List.length_set, List.length_cons] at h ⊢
      omega
    rw [ih _ h2]
    simp only [List.length_set]
    congr 1
    rw [List.take_succ, List.getElem?_set_self hrow, List.set_take]
    rw [List.set_eq_of_length_le (by rw [List.length_take]; omega)]
    rw [List.append_assoc]
    rfl

theorem renderLine_ne_empty (f : String) (p : ℤ) : ¬ renderLine f p = "" := by
  intro h
  have hlen := congrArg String.length h
  unfold renderLine at hlen
  simp only [String.length_append] at hlen
  have h12 : "Downloading ".length = 12 := rfl
  have h0 : "".length = 0 := rfl
  rw [h12, h0] at hlen
  omega

/-- A rendered block of `j` status lines padded with cleared lines has
exactly `j` content lines. -/
theorem contentLineCount_block (snap : List (String × ℤ)) (n : ℕ) :
    contentLineCount (snap.map (fun e => renderLine e.1 e.2) ++
      List.replicate n "") = snap.length := by
  unfold contentLineCount
  rw [List.filter_append]
  have h1 : (snap.map (fun e => renderLine e.1 e.2)).filter
      (fun l => !(l = "" : Bool)) = snap.map (fun e => renderLine e.1 e.2) := by
    rw [List.filter_eq_self]
    intro a ha
    obtain ⟨e, _, hae⟩ := List.mem_map.mp ha
    simp only [Bool.not_eq_true', decide_eq_false_iff_not]
    rw [← hae]
    exact renderLine_ne_empty e.1 e.2
  have h2 : (List.replicate n "").filter (fun l => !(l = "" : Bool)) = [] := by
    rw [List.filter_eq_nil_iff]
    intro a ha
    rw [List.eq_of_mem_replicate ha]
    simp
  rw [h1, h2, List.append_nil, List.length_map]

/-- C8 amended: (1) when the active set shrinks from `k` lines to
`1 ≤ j < k` lines the repainted block is the `j` status lines followed by
`k - j` cleared lines — exactly `j` content lines, no residual text; (2)
when the active set shrinks to `j = 0` the renderer only moves the cursor
up `k` lines and prints nothing (the `len(currently_downloading) != 0`
guard), so the previous `k` lines survive on screen; (3) with an empty
registry and an empty previous block nothing is printed at all. -/
theorem C8_renderer_shrink :
    (∀ (t : Term) (prev : List String) (snap : List (String × ℤ)),
      t.row = t.lines.length → prev.length ≤ t.lines.length → snap ≠ [] →
      snap.length < prev.length →
      (rendererTick t prev snap).1 =
        ⟨t.lines.take (t.lines.length - prev.length) ++
          (snap.map (fun e => renderLine e.1 e.2) ++
            List.replicate (prev.length - snap.length) ""), t.lines.length⟩ ∧
      contentLineCount ((rendererTick t prev snap).1.lines.drop
        (t.lines.length - prev.length)) = snap.length) ∧
    (∀ (t : Term) (prev : List String), prev ≠ [] →
      rendererTick t prev [] = (⟨t.lines, t.row - prev.length⟩, [])) ∧
    (∀ t : Term, rendererTick t [] [] = (t, [])) := by
  refine ⟨?_, ?_, ?_⟩
  · intro t prev snap hrow hk hsnap hj
    have hk0 : prev.length ≠ 0 := by omega
    have hj0 : snap.length ≠ 0 := by
      intro h0
      exact hsnap (List.length_eq_zero.mp h0)
    have hmaplen : (snap.map (fun e => renderLine e.1 e.2)).length = snap.length :=
      List.length_map snap _
    have hfill : (⟨t.lines, t.row - prev.length⟩ : Term).row +
        (snap.map (fun e => renderLine e.1 e.2) ++
          List.replicate (prev.length - snap.length) "").length =
        (⟨t.lines, t.row - prev.length⟩ : Term).lines.length := by
      simp only [List.length_append, List.length_replicate, hmaplen, hrow]
      omega
    have hfirst : (rendererTick t prev snap).1 =
        ⟨t.lines.take (t.lines.length - prev.length) ++
          (snap.map (fun e => renderLine e.1 e.2) ++
            List.replicate (prev.length - snap.length) ""), t.lines.length⟩ := by
      unfold rendererTick cursorUpTerm
      simp only [List.length_map, ne_eq, hk0, not_false_eq_true, if_true, hj0, hj,
        ite_true]
      rw [writeTermLines_fill _ _ hfill]
      simp only [hrow]
    refine ⟨hfirst, ?_⟩
    rw [hfirst]
    simp only
    have htake : (t.lines.take (t.lines.length - prev.length)).length =
        t.lines.length - prev.length := by
      rw [List.length_take]
      omega
    rw [List.drop_left' htake]
    exact contentLineCount_block snap (prev.length - snap.length)
  · intro t prev hprev
    have hk0 : prev.length ≠ 0 := by
      intro h0
      exact hprev (List.length_eq_zero.mp h0)
    unfold rendererTick cursorUpTerm
    rw [if_pos hk0]
    simp
  · intro t
    unfold rendererTick
    simp

/-- C8 counterexample to the claim as stated: the active set shrinks from
`k = 1` to `j = 0` between two ticks, yet after the repaint the block
still shows the old status line — the claim's "including j = 0" fails. -/
theorem C8_counterexample :
    (rendererTick ⟨["Downloading a.mp3... 50%"], 1⟩
        ["Downloading a.mp3... 50%"] []).1.lines =
      ["Downloading a.mp3... 50%"] ∧
    contentLineCount ((rendererTick ⟨["Downloading a.mp3... 50%"], 1⟩
        ["Downloading a.mp3... 50%"] []).1.lines) ≠ 0 := by
  constructor
  · rfl
  · decide

/-- Witness for C8 at a concrete shrink from 2 lines to 1. -/
theorem C8_witness :
    (rendererTick ⟨["L1", "L2"], 2⟩ ["L1", "L2"] [("b.mp3", 10)]).1 =
      ⟨["Downloading b.mp3... 10%", ""], 2⟩ :=
  (C8_renderer_shrink.1 ⟨["L1", "L2"], 2⟩ ["L1", "L2"] [("b.mp3", 10)]
    rfl (by decide) (by decide) (by decide)).1

/-- The chunk iterations of the worker perform no I/O under the lock, so
scanning them leaves the verdict to the rest of the trace. -/
theorem ioWhileLocked_chunks (n : ℕ) (rest : List Act) :
    ioWhileLocked false ((List.replicate n chunkActs).flatten ++ rest) =
      ioWhileLocked false rest := by
  induction n with
  | zero => rfl
  | succ m ih =>
    rw [List.replicate_succ, List.flatten_cons, List.append_assoc]
    show ioWhileLocked false (Act.net :: Act.disk :: Act.fmt :: Act.lock ::
      Act.reg :: Act.unlock :: ((List.replicate m chunkActs).flatten ++ rest)) = _
    simp only [ioWhileLocked, ioAct, Bool.false_and, Bool.and_false, Bool.true_and,
      Bool.false_or]
    exact ih

/-- Reading and formatting the registry entries under the lock is not
I/O, so scanning them leaves the verdict to the rest of the trace. -/
theorem ioWhileLocked_entries (n : ℕ) (rest : List Act) :
    ioWhileLocked true ((List.replicate n [Act.reg, Act.fmt]).flatten ++ rest) =
      ioWhileLocked true rest := by
  induction n with
  | zero => rfl
  | succ m ih =>
    rw [List.replicate_succ, List.flatten_cons, List.append_assoc]
    show ioWhileLocked true (Act.reg :: Act.fmt ::
      ((List.replicate m [Act.reg, Act.fmt]).flatten ++ rest)) = _
    simp only [ioWhileLocked, ioAct, Bool.and_false, Bool.false_or]
    exact ih

/-- The renderer's initial cursor-up print happens before the lock is
taken, so it never contributes a violation. -/
theorem ioWhileLocked_cursorUp (old : ℕ) (rest : List Act) :
    ioWhileLocked false ((if old ≠ 0 then [Act.term] else []) ++ rest) =
      ioWhileLocked false rest := by
  by_cases h : old ≠ 0
  · rw [if_pos h]
    show ioWhileLocked false (Act.term :: rest) = _
    simp [ioWhileLocked, ioAct]
  · rw [if_neg h, List.nil_append]

/-- C9 amended: the worker never performs network or disk I/O while
holding the registry lock (its three critical sections only touch the
dict); the renderer, however, formats the output and prints it to the
terminal while still holding the lock — `print(s)` at line 113 runs
before `lock.release()` at line 114. -/
theorem C9_lock_scope :
    (∀ n : ℕ, ioWhileLocked false (workerTaskTrace n) = false) ∧
    (∀ old entries : ℕ, entries ≠ 0 →
      ioWhileLocked false (rendererTickTrace old entries) = true) := by
  constructor
  · intro n
    unfold workerTaskTrace
    rw [List.append_assoc]
    show ioWhileLocked false (Act.lock :: Act.reg :: Act.unlock :: Act.net ::
      Act.disk :: ((List.replicate n chunkActs).flatten ++
        [Act.disk, Act.lock, Act.reg, Act.unlock])) = false
    simp only [ioWhileLocked, ioAct, Bool.false_and, Bool.and_false, Bool.true_and,
      Bool.false_or]
    rw [ioWhileLocked_chunks]
    rfl
  · intro old entries hentries
    unfold rendererTickTrace
    rw [if_pos hentries]
    simp only [List.append_assoc, List.cons_append, List.nil_append]
    rw [ioWhileLocked_cursorUp]
    show ioWhileLocked false (Act.lock ::
      ((List.replicate entries [Act.reg, Act.fmt]).flatten ++
        (Act.fmt :: Act.term :: [Act.unlock]))) = true
    simp only [ioWhileLocked]
    rw [ioWhileLocked_entries]
    rfl

/-- C9 counterexample to the claim as stated: in a renderer iteration
with one previous line and one registry entry, terminal I/O happens while
the registry lock is held — the renderer does not release the lock before
formatting and printing. -/
theorem C9_counterexample :
    ioWhileLocked false (rendererTickTrace 1 1) = true := by
  decide

/-- Witness for C9: the worker trace with two chunks is violation-free,
the renderer trace with one previous line and one entry violates. -/
theorem C9_witness :
    ioWhileLocked false (workerTaskTrace 2) = false ∧
    ioWhileLocked false (rendererTickTrace 2 3) = true :=
  ⟨C9_lock_scope.1 2, C9_lock_scope.2 2 3 (by decide)⟩

end Scrape
